import Mathlib

set_option maxHeartbeats 1000000

/-!
Verification of the worker-pool queue of `src/solutions/threadpool_task3.c`.

The C program keeps a singly linked list of pending requests guarded by a
mutex, together with a tail pointer `last_request` and a counter
`num_requests`, plus a separate `quit` flag read by the worker loop.  We
embed the queue as a pointer machine: allocated nodes live in an arena
(a `List Request`), pointers are arena indices, and `none` models `NULL`.
`free` is a no-op in the arena model (indices are never reused), which is
sound here because no claim depends on address reuse.
-/

namespace ThreadPool

/-- One queue node, the C `struct request`: the opaque work function and
payload are abstracted as integer identifiers; `next` is the pointer to the
next node (`none` models `NULL`). -/
structure Request where
  func : Int
  data : Int
  next : Option Nat
deriving DecidableEq

/-- The shared queue state of the C program: the arena of allocated nodes,
the head pointer `requests`, the tail pointer `last_request` and the
counter `num_requests` (a C `int`). -/
structure PoolState where
  heap : List Request
  requests : Option Nat
  last_request : Option Nat
  num_requests : Int
deriving DecidableEq

/-- Initial global state of the program: empty list, both pointers `NULL`,
counter `0`. -/
def initState : PoolState :=
  { heap := [], requests := none, last_request := none, num_requests := 0 }

/-- Abnormal outcomes: `outOfMemory` models the `exit(1)` taken in
`add_request` when `malloc` fails; `nullDeref` models dereferencing an
invalid pointer (undefined behaviour, never reached from well formed
states). -/
inductive CErr where
  | outOfMemory
  | nullDeref
deriving DecidableEq

/-- `add_request` from the C source.  `allocOk` is the allocation oracle:
`false` means `malloc` returned `NULL`, upon which the C code prints and
calls `exit(1)` (modelled as `.error .outOfMemory`).  Otherwise a fresh
node with `next = NULL` is placed in the arena; if `num_requests == 0` the
node becomes both head and tail, else it is linked after the node the tail
pointer refers to, and in both cases `num_requests` is incremented. -/
def add_request (func data : Int) (allocOk : Bool) (s : PoolState) :
    Except CErr PoolState :=
  if allocOk then
    let newId := s.heap.length
    let h1 := s.heap ++ [{ func := func, data := data, next := none }]
    if s.num_requests = 0 then
      .ok { heap := h1, requests := some newId, last_request := some newId,
            num_requests := s.num_requests + 1 }
    else
      match s.last_request with
      | none => .error .nullDeref
      | some t =>
        match h1[t]? with
        | none => .error .nullDeref
        | some rt =>
          .ok { heap := h1.set t { rt with next := some newId },
                requests := s.requests, last_request := some newId,
                num_requests := s.num_requests + 1 }
  else
    .error .outOfMemory

/-- `get_request` from the C source.  If `num_requests > 0` the head node
is unlinked (`requests = a_request->next`), the tail pointer is cleared
when the list became empty, and the counter is decremented; the removed
node (its arena index) is returned.  Otherwise `NULL` is returned and the
state is untouched. -/
def get_request (s : PoolState) : Except CErr (Option Nat × PoolState) :=
  if 0 < s.num_requests then
    match s.requests with
    | none => .error .nullDeref
    | some a =>
      match s.heap[a]? with
      | none => .error .nullDeref
      | some r =>
        let requests1 := r.next
        .ok (some a,
          { s with requests := requests1,
                   last_request := if requests1 = none then none
                                   else s.last_request,
                   num_requests := s.num_requests - 1 })
  else
    .ok (none, s)

/-- The payload carried by arena node `i`: its (function, data) pair.  Only
meaningful at allocated indices; the default is never reached under
`Chain`. -/
def itemAt (h : List Request) (i : Nat) : Int × Int :=
  match h[i]? with
  | some r => (r.func, r.data)
  | none => (0, 0)

/-- The payloads of a list of arena nodes, head first. -/
def itemsAt (h : List Request) (ids : List Nat) : List (Int × Int) :=
  ids.map (itemAt h)

/-- `Chain h o ids`: starting from pointer `o` and following `next`
pointers through arena `h` visits exactly the nodes `ids` and ends at
`NULL`.  This is the linked list the C code traverses from `requests`. -/
inductive Chain : List Request → Option Nat → List Nat → Prop where
  | nil (h : List Request) : Chain h none []
  | cons {h : List Request} {i : Nat} {r : Request} {l : List Nat} :
      h[i]? = some r → Chain h r.next l → Chain h (some i) (i :: l)

/-- The structural invariant tying the four global variables together: the
head pointer reaches exactly the nodes `ids`, the counter equals their
number, the tail pointer is the last node of the chain, and the chain
visits no node twice. -/
structure ChainInv (s : PoolState) (ids : List Nat) : Prop where
  chain : Chain s.heap s.requests ids
  count : s.num_requests = ids.length
  tailp : s.last_request = ids.getLast?
  nodup : ids.Nodup

/-- The invariant holds initially, with the empty chain. -/
theorem chainInv_init : ChainInv initState [] :=
  ⟨Chain.nil _, rfl, rfl, List.nodup_nil⟩

/-- A chain starting at `NULL` visits no node. -/
theorem chain_none_elim {h : List Request} {l : List Nat}
    (hc : Chain h none l) : l = [] := by
  cases hc
  rfl

/-- A chain visiting `i :: l` starts at `i`, whose node exists and whose
`next` pointer continues the chain through `l`. -/
theorem chain_cons_elim {h : List Request} {o : Option Nat} {i : Nat}
    {l : List Nat} (hc : Chain h o (i :: l)) :
    o = some i ∧ ∃ r, h[i]? = some r ∧ Chain h r.next l := by
  cases hc with
  | cons hr hrest => exact ⟨rfl, _, hr, hrest⟩

/-- Every node visited by a chain is allocated in the arena. -/
theorem chain_mem_lt {h : List Request} {o : Option Nat} {l : List Nat}
    (hc : Chain h o l) : ∀ i ∈ l, i < h.length := by
  induction hc with
  | nil => intro i hi; cases hi
  | cons hr _ ih =>
    intro j hj
    rcases List.mem_cons.mp hj with hj | hj
    · subst hj
      exact (List.getElem?_eq_some.mp hr).1
    · exact ih j hj

/-- Every node visited by a chain has an entry in the arena. -/
theorem chain_mem_entry {h : List Request} {o : Option Nat} {l : List Nat}
    (hc : Chain h o l) : ∀ i ∈ l, ∃ r, h[i]? = some r := by
  induction hc with
  | nil => intro i hi; cases hi
  | cons hr _ ih =>
    intro j hj
    rcases List.mem_cons.mp hj with hj | hj
    · subst hj; exact ⟨_, hr⟩
    · exact ih j hj

/-- Chains only look at the arena entries of the nodes they visit, so they
transport to any arena that agrees there. -/
theorem chain_agree {h h2 : List Request} {o : Option Nat} {l : List Nat}
    (hc : Chain h o l) (hag : ∀ i ∈ l, h2[i]? = h[i]?) : Chain h2 o l := by
  induction hc with
  | nil => exact Chain.nil _
  | cons hr hrest ih =>
    refine Chain.cons (by rw [hag _ (List.mem_cons_self _ _)]; exact hr) ?_
    exact ih fun i hi => hag i (List.mem_cons_of_mem _ hi)

/-- A chain visiting no node starts at `NULL`. -/
theorem chain_nil_src {h : List Request} {o : Option Nat}
    (hc : Chain h o []) : o = none := by
  cases hc
  rfl

/-- The last node of a non-empty chain has a `NULL` `next` pointer: the
list the C code builds is properly terminated at the tail. -/
theorem chain_last_next_none {h : List Request} :
    ∀ {l : List Nat} {o : Option Nat} {t : Nat}, Chain h o l →
      l.getLast? = some t → ∃ r, h[t]? = some r ∧ r.next = none := by
  intro l
  induction l with
  | nil => intro o t hc ht; cases ht
  | cons i l2 ih =>
    intro o t hc ht
    obtain ⟨ho, r, hr, hrest⟩ := chain_cons_elim hc
    cases l2 with
    | nil =>
      have hnext : r.next = none := chain_nil_src hrest
      have hti : t = i := by
        simp [List.getLast?] at ht
        omega
      subst hti
      exact ⟨r, hr, hnext⟩
    | cons j l3 =>
      rw [List.getLast?_cons_cons] at ht
      exact ih hrest ht

/-- Extending a chain at the tail: redirecting the `next` pointer of the
last node `t` to a fresh terminal node `nid` (as `add_request` does with
`last_request->next = a_request`) extends the visited nodes by `nid`. -/
theorem chain_snoc {h h2 : List Request} {t nid : Nat} :
    ∀ {l : List Nat} {o : Option Nat},
      Chain h o l → l.getLast? = some t → l.Nodup →
      (∀ i ∈ l, i ≠ t → h2[i]? = h[i]?) →
      (∀ r, h[t]? = some r → h2[t]? = some { r with next := some nid }) →
      (∃ rn, h2[nid]? = some rn ∧ rn.next = none) →
      Chain h2 o (l ++ [nid]) := by
  intro l
  induction l with
  | nil => intro o _ ht _ _ _ _; cases ht
  | cons i l2 ih =>
    intro o hc ht hnd hag hsett hnew
    obtain ⟨ho, r, hr, hrest⟩ := chain_cons_elim hc
    subst ho
    cases l2 with
    | nil =>
      have hti : t = i := by
        simp [List.getLast?] at ht
        omega
      subst hti
      refine Chain.cons (hsett r hr) ?_
      obtain ⟨rn, hrn, hrnn⟩ := hnew
      refine Chain.cons hrn ?_
      rw [hrnn]
      exact Chain.nil _
    | cons j l3 =>
      have ht2 : (j :: l3).getLast? = some t := by
        rw [List.getLast?_cons_cons] at ht
        exact ht
      have hit : i ≠ t := by
        have htmem : t ∈ j :: l3 := List.mem_of_getLast?_eq_some ht2
        have hninl : i ∉ j :: l3 := (List.nodup_cons.mp hnd).1
        intro he
        subst he
        exact hninl htmem
      refine Chain.cons (by rw [hag i (List.mem_cons_self _ _) hit]; exact hr) ?_
      exact ih hrest ht2 (List.nodup_cons.mp hnd).2
        (fun k hk hkt => hag k (List.mem_cons_of_mem _ hk) hkt) hsett hnew

/-- Full postcondition of a successful `add_request`: the call succeeds,
the chain gains exactly the fresh node at the tail, the counter goes up by
one, the tail pointer moves to the fresh node, the fresh node carries the
submitted payload, and the payloads of the nodes already queued are
untouched. -/
theorem add_spec (f d : Int) {s : PoolState} {ids : List Nat}
    (hs : ChainInv s ids) :
    ∃ s2, add_request f d true s = .ok s2 ∧
      ChainInv s2 (ids ++ [s.heap.length]) ∧
      s2.num_requests = s.num_requests + 1 ∧
      s2.last_request = some s.heap.length ∧
      s2.heap.length = s.heap.length + 1 ∧
      itemAt s2.heap s.heap.length = (f, d) ∧
      (∀ i ∈ ids, itemAt s2.heap i = itemAt s.heap i) := by
  obtain ⟨hch, hcount, htail, hnd⟩ := hs
  by_cases hz : s.num_requests = 0
  · have hlen0 : ids.length = 0 := by
      have h0 : (ids.length : Int) = 0 := by rw [← hcount, hz]
      exact_mod_cast h0
    have hids : ids = [] := List.length_eq_zero.mp hlen0
    subst hids
    refine ⟨{ heap := s.heap ++ [{ func := f, data := d, next := none }],
              requests := some s.heap.length,
              last_request := some s.heap.length,
              num_requests := s.num_requests + 1 },
            by simp [add_request, hz], ?_, rfl, rfl, by simp, ?_, ?_⟩
    · refine ⟨?_, ?_, ?_, ?_⟩
      · refine Chain.cons (List.getElem?_concat_length _ _) ?_
        exact Chain.nil _
      · rw [hz]
        simp
      · simp [List.getLast?]
      · simp
    · simp [itemAt, List.getElem?_concat_length]
    · intro i hi
      cases hi
  · have hne : ids ≠ [] := by
      intro he
      subst he
      simp at hcount
      exact hz hcount
    obtain ⟨t, htl⟩ : ∃ t, ids.getLast? = some t :=
      ⟨ids.getLast hne, List.getLast?_eq_getLast ids hne⟩
    have htail2 : s.last_request = some t := by rw [htail, htl]
    have htmem : t ∈ ids := List.mem_of_getLast?_eq_some htl
    have htlt : t < s.heap.length := chain_mem_lt hch t htmem
    obtain ⟨rt, hrt⟩ := chain_mem_entry hch t htmem
    have hh1t : (s.heap ++ [({ func := f, data := d, next := none } : Request)])[t]? =
        some rt := by
      rw [List.getElem?_append_left htlt]
      exact hrt
    refine ⟨{ heap := (s.heap ++ [({ func := f, data := d, next := none } : Request)]).set t
                { rt with next := some s.heap.length },
              requests := s.requests,
              last_request := some s.heap.length,
              num_requests := s.num_requests + 1 },
            by simp [add_request, hz, htail2, hh1t], ?_, rfl, rfl, by simp, ?_, ?_⟩
    · have hlt_all : ∀ i ∈ ids, i < s.heap.length := chain_mem_lt hch
      have hch1 : Chain (s.heap ++ [({ func := f, data := d, next := none } : Request)])
          s.requests ids := by
        refine chain_agree hch ?_
        intro i hi
        exact List.getElem?_append_left (hlt_all i hi)
      refine ⟨?_, ?_, ?_, ?_⟩
      · refine chain_snoc hch1 htl hnd ?_ ?_ ?_
        · intro i hi hit
          exact List.getElem?_set_ne (fun he => hit he.symm)
        · intro r hr1
          have hreq : r = rt := by
            rw [hh1t] at hr1
            exact (Option.some.inj hr1).symm
          subst hreq
          exact List.getElem?_set_self (by simp; omega)
        · refine ⟨({ func := f, data := d, next := none } : Request), ?_, rfl⟩
          rw [List.getElem?_set_ne (by omega)]
          exact List.getElem?_concat_length _ _
      · simp only [List.length_append, List.length_cons, List.length_nil]
        push_cast
        omega
      · rw [List.getLast?_concat]
      · rw [List.nodup_append]
        refine ⟨hnd, List.nodup_singleton _, ?_⟩
        intro a ha hb
        simp at hb
        subst hb
        exact absurd (hlt_all _ ha) (by omega)
    · have h1 : ((s.heap ++ [({ func := f, data := d, next := none } : Request)]).set t
          { rt with next := some s.heap.length })[s.heap.length]? =
          some ({ func := f, data := d, next := none } : Request) := by
        rw [List.getElem?_set_ne (by omega)]
        exact List.getElem?_concat_length _ _
      simp [itemAt, h1]
    · intro i hi
      by_cases hit : i = t
      · have h1 : ((s.heap ++ [({ func := f, data := d, next := none } : Request)]).set t
            { rt with next := some s.heap.length })[i]? =
            some { rt with next := some s.heap.length } := by
          rw [hit]
          exact List.getElem?_set_self (by simp; omega)
        have h2 : s.heap[i]? = some rt := by
          rw [hit]
          exact hrt
        simp [itemAt, h1, h2]
      · have h1 : ((s.heap ++ [({ func := f, data := d, next := none } : Request)]).set t
            { rt with next := some s.heap.length })[i]? = s.heap[i]? := by
          rw [List.getElem?_set_ne (fun he => hit he.symm)]
          exact List.getElem?_append_left (chain_mem_lt hch i hi)
        simp [itemAt, h1]

/-- On an empty queue (`num_requests == 0`) `get_request` takes the `else`
branch: it returns `NULL` and touches nothing. -/
theorem get_request_of_empty {s : PoolState} (h : s.num_requests = 0) :
    get_request s = .ok (none, s) := by
  simp [get_request, h]

/-- Full postcondition of `get_request` on a non-empty queue: it removes
and returns the head node, the counter drops by one, the arena is
untouched, and when the removed node was the only one both pointers are
cleared. -/
theorem get_spec_cons {s : PoolState} {i : Nat} {ids : List Nat}
    (hs : ChainInv s (i :: ids)) :
    ∃ r s2, s.heap[i]? = some r ∧
      get_request s = .ok (some i, s2) ∧
      ChainInv s2 ids ∧
      s2.heap = s.heap ∧
      s2.num_requests = s.num_requests - 1 ∧
      s2.requests = r.next ∧
      s.requests = some i ∧
      (s.num_requests = 1 → s2.requests = none ∧ s2.last_request = none) := by
  obtain ⟨hch, hcount, htail, hnd⟩ := hs
  obtain ⟨hreq, r, hr, hrest⟩ := chain_cons_elim hch
  have hpos : 0 < s.num_requests := by
    rw [hcount]
    simp only [List.length_cons]
    push_cast
    omega
  refine ⟨r, { s with requests := r.next,
                      last_request := if r.next = none then none
                                      else s.last_request,
                      num_requests := s.num_requests - 1 },
          hr, by simp [get_request, hpos, hreq, hr], ?_, rfl, rfl, rfl, hreq, ?_⟩
  · refine ⟨hrest, ?_, ?_, (List.nodup_cons.mp hnd).2⟩
    · rw [hcount]
      simp only [List.length_cons]
      push_cast
      omega
    · cases ids with
      | nil =>
        have hn : r.next = none := chain_nil_src hrest
        simp [hn]
      | cons j l3 =>
        obtain ⟨hj, _⟩ := chain_cons_elim hrest
        rw [hj]
        simp only [if_neg (by simp : (some j : Option Nat) ≠ none)]
        rw [htail, List.getLast?_cons_cons]
  · intro h1
    have hids : ids = [] := by
      rw [h1] at hcount
      simp only [List.length_cons] at hcount
      push_cast at hcount
      have h0 : ids.length = 0 := by omega
      exact List.length_eq_zero.mp h0
    subst hids
    have hn : r.next = none := chain_nil_src hrest
    simp [hn]

/-- Queue states reachable from the initial globals by any interleaving of
successful `add_request` and `get_request` calls (all of which happen
under the mutex in the C program, so each call is one atomic step). -/
inductive PoolReach : PoolState → Prop where
  | init : PoolReach initState
  | add {s s2 : PoolState} (f d : Int) :
      PoolReach s → add_request f d true s = .ok s2 → PoolReach s2
  | get {s s2 : PoolState} {r : Option Nat} :
      PoolReach s → get_request s = .ok (r, s2) → PoolReach s2

/-- Every reachable queue state satisfies the structural invariant for
some chain of node indices. -/
theorem reach_chainInv {s : PoolState} (h : PoolReach s) :
    ∃ ids, ChainInv s ids := by
  induction h with
  | init => exact ⟨[], chainInv_init⟩
  | add f d _ hok ih =>
    obtain ⟨ids, hinv⟩ := ih
    obtain ⟨s3, hok2, hinv2, -⟩ := add_spec f d hinv
    rw [hok] at hok2
    injection hok2 with he
    rw [he]
    exact ⟨_, hinv2⟩
  | get _ hok ih =>
    obtain ⟨ids, hinv⟩ := ih
    cases ids with
    | nil =>
      have h0 : get_request _ = .ok (none, _) :=
        get_request_of_empty (by rw [hinv.count]; rfl)
      rw [hok] at h0
      injection h0 with he
      injection he with _ he2
      rw [he2]
      exact ⟨[], hinv⟩
    | cons i ids0 =>
      obtain ⟨r, s3, -, hok2, hinv2, -⟩ := get_spec_cons hinv
      rw [hok] at hok2
      injection hok2 with he
      injection he with _ he2
      rw [← he2] at hinv2
      exact ⟨ids0, hinv2⟩

/-- One operation on the shared queue, as issued by producers
(`add_request`, with a successful allocation) and workers
(`get_request`). -/
inductive QOp where
  | enq (func data : Int)
  | deq
deriving DecidableEq

/-- Run a list of queue operations from a state, recording the payloads
enqueued (in submission order) and the payloads returned by successful
dequeues (in return order).  Propagates the abnormal outcomes of the two
C functions. -/
def runOps : PoolState → List QOp → Except CErr (PoolState × List (Int × Int) × List (Int × Int))
  | s, [] => .ok (s, [], [])
  | s, QOp.enq f d :: rest =>
    match add_request f d true s with
    | .error e => .error e
    | .ok s2 =>
      match runOps s2 rest with
      | .error e => .error e
      | .ok (sf, es, ds) => .ok (sf, (f, d) :: es, ds)
  | s, QOp.deq :: rest =>
    match get_request s with
    | .error e => .error e
    | .ok (none, s2) => runOps s2 rest
    | .ok (some i, s2) =>
      match runOps s2 rest with
      | .error e => .error e
      | .ok (sf, es, ds) => .ok (sf, es, itemAt s.heap i :: ds)

/-- Transporting `itemsAt` along arenas that agree on the listed nodes. -/
theorem itemsAt_agree {h h2 : List Request} {ids : List Nat}
    (hag : ∀ i ∈ ids, itemAt h2 i = itemAt h i) :
    itemsAt h2 ids = itemsAt h ids := by
  unfold itemsAt
  exact List.map_congr_left hag

/-- Main FIFO bookkeeping: from any state satisfying the invariant, every
run of operations succeeds, preserves the invariant, and the payloads
dequeued followed by the payloads still queued are exactly the payloads
initially queued followed by the payloads enqueued, in order. -/
theorem runOps_fifo : ∀ (ops : List QOp) (s : PoolState) (ids : List Nat),
    ChainInv s ids →
    ∃ sf es ds idsf, runOps s ops = .ok (sf, es, ds) ∧ ChainInv sf idsf ∧
      ds ++ itemsAt sf.heap idsf = itemsAt s.heap ids ++ es := by
  intro ops
  induction ops with
  | nil =>
    intro s ids hinv
    exact ⟨s, [], [], ids, rfl, hinv, by simp⟩
  | cons op rest ih =>
    intro s ids hinv
    cases op with
    | enq f d =>
      obtain ⟨s2, hok, hinv2, -, -, -, hitem, hpres⟩ := add_spec f d hinv
      obtain ⟨sf, es, ds, idsf, hrun, hinvf, heq⟩ := ih s2 _ hinv2
      refine ⟨sf, (f, d) :: es, ds, idsf, ?_, hinvf, ?_⟩
      · simp only [runOps, hok, hrun]
      · have hitems2 : itemsAt s2.heap (ids ++ [s.heap.length]) =
            itemsAt s.heap ids ++ [(f, d)] := by
          unfold itemsAt
          rw [List.map_append]
          congr 1
          · exact List.map_congr_left hpres
          · simp [hitem]
        rw [heq, hitems2]
        simp
    | deq =>
      cases ids with
      | nil =>
        have h0 : get_request s = .ok (none, s) :=
          get_request_of_empty (by rw [hinv.count]; rfl)
        obtain ⟨sf, es, ds, idsf, hrun, hinvf, heq⟩ := ih s [] hinv
        refine ⟨sf, es, ds, idsf, ?_, hinvf, heq⟩
        simp only [runOps, h0]
        exact hrun
      | cons i ids0 =>
        obtain ⟨r, s2, -, hok, hinv2, hheap, -, -, -, -⟩ := get_spec_cons hinv
        obtain ⟨sf, es, ds, idsf, hrun, hinvf, heq⟩ := ih s2 ids0 hinv2
        refine ⟨sf, es, itemAt s.heap i :: ds, idsf, ?_, hinvf, ?_⟩
        · simp only [runOps, hok, hrun]
        · have : itemsAt s2.heap ids0 = itemsAt s.heap ids0 := by rw [hheap]
          rw [List.cons_append, heq, this]
          rfl

/-- Control location of one worker thread inside `handle_requests_loop`.
`top` is the head of the `while (running)` loop with `request_mutex` held;
`working rid` is the region where the mutex is released and the dequeued
node `rid` is being handled and freed; `checkQuit` is the read of `quit`
under `quit_mutex` performed at the end of every iteration; `waiting` is
the `pthread_cond_wait`; `exited` is past the loop. -/
inductive WLoc where
  | top
  | working (rid : Nat)
  | waiting
  | checkQuit
  | exited
deriving DecidableEq

/-- The whole shared state of the program: the queue globals, the `quit`
flag and the control locations of the worker threads. -/
structure SysState where
  pool : PoolState
  quit : Bool
  workers : List WLoc
deriving DecidableEq

/-- Initial system state: `NUM_HANDLER_THREADS = 3` workers, each having
locked the mutex and entered the loop, `quit = 0`, empty queue. -/
def sysInit : SysState :=
  { pool := initState, quit := false, workers := [WLoc.top, WLoc.top, WLoc.top] }

/-- One interleaved step of the program.  Queue operations and the reads
and writes of `quit` each happen under a mutex in the C source, so each is
one atomic step; the region between releasing and reacquiring
`request_mutex` around the user callback is the separate `working`
location. -/
inductive SysStep : SysState → SysState → Prop where
  | submit {s : SysState} (func data : Int) {p2 : PoolState} :
      add_request func data true s.pool = .ok p2 →
      SysStep s { pool := p2, quit := s.quit, workers := s.workers }
  | setQuit {s : SysState} :
      SysStep s { pool := s.pool, quit := true, workers := s.workers }
  | dequeue {s : SysState} (i : Nat) {rid : Nat} {p2 : PoolState} :
      s.workers[i]? = some WLoc.top →
      0 < s.pool.num_requests →
      get_request s.pool = .ok (some rid, p2) →
      SysStep s { pool := p2, quit := s.quit,
                  workers := s.workers.set i (WLoc.working rid) }
  | finishWork {s : SysState} (i : Nat) {rid : Nat} :
      s.workers[i]? = some (WLoc.working rid) →
      SysStep s { pool := s.pool, quit := s.quit,
                  workers := s.workers.set i WLoc.checkQuit }
  | startWait {s : SysState} (i : Nat) :
      s.workers[i]? = some WLoc.top →
      ¬ 0 < s.pool.num_requests →
      SysStep s { pool := s.pool, quit := s.quit,
                  workers := s.workers.set i WLoc.waiting }
  | wakeUp {s : SysState} (i : Nat) :
      s.workers[i]? = some WLoc.waiting →
      SysStep s { pool := s.pool, quit := s.quit,
                  workers := s.workers.set i WLoc.checkQuit }
  | observeQuitTrue {s : SysState} (i : Nat) :
      s.workers[i]? = some WLoc.checkQuit →
      s.quit = true →
      SysStep s { pool := s.pool, quit := s.quit,
                  workers := s.workers.set i WLoc.exited }
  | observeQuitFalse {s : SysState} (i : Nat) :
      s.workers[i]? = some WLoc.checkQuit →
      s.quit = false →
      SysStep s { pool := s.pool, quit := s.quit,
                  workers := s.workers.set i WLoc.top }

/-- Queue state after two submissions: two nodes linked head to tail. -/
def bugPoolTwo : PoolState :=
  { heap := [{ func := 0, data := 0, next := some 1 },
             { func := 0, data := 1, next := none }],
    requests := some 0, last_request := some 1, num_requests := 2 }

/-- Queue state after the first of those two nodes has been dequeued: one
node still pending. -/
def bugPoolOne : PoolState :=
  { heap := [{ func := 0, data := 0, next := some 1 },
             { func := 0, data := 1, next := none }],
    requests := some 1, last_request := some 1, num_requests := 1 }

/-- A concrete execution of the worker loop as written in the source: two
items are submitted, the producer sets `quit` and broadcasts, worker 0
dequeues and handles one item, then reads `quit` at the end of the
iteration and leaves the loop while `num_requests` is still `1`. -/
theorem exited_with_pending_reachable :
    Relation.ReflTransGen SysStep sysInit
      { pool := bugPoolOne, quit := true,
        workers := [WLoc.exited, WLoc.top, WLoc.top] } := by
  have h1 : SysStep sysInit
      { pool := { heap := [{ func := 0, data := 0, next := none }],
                  requests := some 0, last_request := some 0,
                  num_requests := 1 },
        quit := false, workers := [WLoc.top, WLoc.top, WLoc.top] } :=
    SysStep.submit 0 0 rfl
  have h2 : SysStep
      { pool := { heap := [{ func := 0, data := 0, next := none }],
                  requests := some 0, last_request := some 0,
                  num_requests := 1 },
        quit := false, workers := [WLoc.top, WLoc.top, WLoc.top] }
      { pool := bugPoolTwo, quit := false,
        workers := [WLoc.top, WLoc.top, WLoc.top] } :=
    SysStep.submit 0 1 rfl
  have h3 : SysStep
      { pool := bugPoolTwo, quit := false,
        workers := [WLoc.top, WLoc.top, WLoc.top] }
      { pool := bugPoolTwo, quit := true,
        workers := [WLoc.top, WLoc.top, WLoc.top] } :=
    SysStep.setQuit
  have h4 : SysStep
      { pool := bugPoolTwo, quit := true,
        workers := [WLoc.top, WLoc.top, WLoc.top] }
      { pool := bugPoolOne, quit := true,
        workers := [WLoc.working 0, WLoc.top, WLoc.top] } :=
    SysStep.dequeue 0 rfl (by norm_num [bugPoolTwo]) rfl
  have h5 : SysStep
      { pool := bugPoolOne, quit := true,
        workers := [WLoc.working 0, WLoc.top, WLoc.top] }
      { pool := bugPoolOne, quit := true,
        workers := [WLoc.checkQuit, WLoc.top, WLoc.top] } :=
    SysStep.finishWork 0 rfl
  have h6 : SysStep
      { pool := bugPoolOne, quit := true,
        workers := [WLoc.checkQuit, WLoc.top, WLoc.top] }
      { pool := bugPoolOne, quit := true,
        workers := [WLoc.exited, WLoc.top, WLoc.top] } :=
    SysStep.observeQuitTrue 0 rfl rfl
  exact Relation.ReflTransGen.head h1 (Relation.ReflTransGen.head h2
    (Relation.ReflTransGen.head h3 (Relation.ReflTransGen.head h4
      (Relation.ReflTransGen.head h5 (Relation.ReflTransGen.single h6)))))

/-- `squareValue` from the C source: `*value = *value * *value` on a C
`int`.  Every value of the demo stays well inside 32-bit range (checked
explicitly below), so plain integer multiplication is the exact
semantics. -/
def squareValue (x : Int) : Int := x * x

/-- The demo input array of `main`. -/
def mainArray : List Int :=
  [1, 12, 21323, 12, 31312, 1, 13, 3, 5, 7, 8, 9, 943]

/-- The output array the specification asserts for the square-in-place
scenario. -/
def specSquares : List Int :=
  [1, 144, 454670329, 144, 980440944, 1, 169, 9, 25, 49, 64, 81, 889249]

/-- The array actually obtained by squaring each input element. -/
def actualSquares : List Int :=
  [1, 144, 454670329, 144, 980441344, 1, 169, 9, 25, 49, 64, 81, 889249]

/-- Queue state holding the single pending request `(5, 7)`. -/
def poolOne : PoolState :=
  { heap := [{ func := 5, data := 7, next := none }],
    requests := some 0, last_request := some 0, num_requests := 1 }

/-- The structural invariant for `poolOne`, with the one-node chain. -/
theorem poolOne_inv : ChainInv poolOne [0] :=
  ⟨Chain.cons rfl (Chain.nil _), rfl, rfl, by simp⟩

/-- Queue state holding the single pending request `(5, 7)` after shutdown
was requested; used as concrete counterexample state. -/
def cexPool : PoolState :=
  { heap := [{ func := 5, data := 7, next := none }],
    requests := some 0, last_request := some 0, num_requests := 1 }

/-- Claim C1: the spec property — a worker exits only when the queue is
empty AND shutdown is true, so no submitted work is dropped — fails on
the source: the loop checks `quit` unconditionally at the end of every
iteration, so this theorem exhibits a reachable program state in which
worker 0 has exited while `num_requests` is still positive (one submitted
item is still queued, its function never invoked). -/
theorem c1_worker_exit_with_pending_work :
    ∃ S : SysState, Relation.ReflTransGen SysStep sysInit S ∧
      S.workers[0]? = some WLoc.exited ∧ 0 < S.pool.num_requests := by
  refine ⟨{ pool := bugPoolOne, quit := true,
            workers := [WLoc.exited, WLoc.top, WLoc.top] },
          exited_with_pending_reachable, rfl, ?_⟩
  norm_num [bugPoolOne]

/-- Claim C2: FIFO dequeue order — for every interleaved sequence of
enqueue and dequeue operations starting from the empty queue, every
operation succeeds and the sequence of payloads returned by the
successful dequeues is exactly a prefix of the sequence of payloads
enqueued, in submission order. -/
theorem c2_fifo_dequeue_order (ops : List QOp) :
    ∃ sf es ds, runOps initState ops = .ok (sf, es, ds) ∧
      es.take ds.length = ds := by
  obtain ⟨sf, es, ds, idsf, hrun, hinvf, heq⟩ :=
    runOps_fifo ops initState [] chainInv_init
  refine ⟨sf, es, ds, hrun, ?_⟩
  have heq2 : es = ds ++ itemsAt sf.heap idsf := heq.symm
  rw [heq2]
  exact List.take_left ds _

/-- Claim C3 counterexample: from the system state in which shutdown has
been performed (`quit = true`) and the queue is empty, a submit step is
enabled and succeeds — the code has no `ShuttingDown` rejection — and it
changes the queue: the item is enqueued and the counter grows by one. -/
theorem c3_submit_after_shutdown_cex :
    SysStep { pool := initState, quit := true,
              workers := [WLoc.top, WLoc.top, WLoc.top] }
      { pool := cexPool, quit := true,
        workers := [WLoc.top, WLoc.top, WLoc.top] } ∧
    cexPool.num_requests = initState.num_requests + 1 ∧
    cexPool.requests ≠ initState.requests :=
  ⟨SysStep.submit 5 7 rfl, rfl, by simp [cexPool, initState]⟩

/-- Claim C3 amended: `add_request` never consults the shutdown flag:
from any system state whose queue satisfies the structural invariant —
in particular any state after shutdown, `quit = true` — a submit with a
successful allocation is enabled, enqueues the item, and grows the queue
length by one with the tail pointing at the new item. -/
theorem c3_submit_ignores_shutdown (f d : Int) (q : Bool) (ws : List WLoc)
    (s : PoolState) (ids : List Nat) (h : ChainInv s ids) :
    ∃ p2, SysStep { pool := s, quit := q, workers := ws }
        { pool := p2, quit := q, workers := ws } ∧
      p2.num_requests = s.num_requests + 1 ∧
      p2.last_request = some s.heap.length := by
  obtain ⟨p2, hok, _, hnum, hlast, -⟩ := add_spec f d h
  exact ⟨p2, SysStep.submit f d hok, hnum, hlast⟩

/-- Witness for the amended claim C3, at the concrete post-shutdown state
with an empty queue. -/
theorem c3_submit_ignores_shutdown_witness :
    ∃ p2, SysStep { pool := initState, quit := true,
                    workers := [WLoc.top, WLoc.top, WLoc.top] }
        { pool := p2, quit := true,
          workers := [WLoc.top, WLoc.top, WLoc.top] } ∧
      p2.num_requests = initState.num_requests + 1 ∧
      p2.last_request = some initState.heap.length :=
  c3_submit_ignores_shutdown 5 7 true [WLoc.top, WLoc.top, WLoc.top]
    initState [] chainInv_init

/-- Claim C4: dequeue postcondition — on a well formed queue state,
`get_request` returns `NULL` and changes nothing when the queue is empty;
otherwise it removes and returns the head node, decreases the counter by
exactly one, and if the removed node was the last one it clears both the
head and the tail pointer to `NULL`. -/
theorem c4_get_request_post (s : PoolState) (ids : List Nat)
    (h : ChainInv s ids) :
    (s.num_requests = 0 → get_request s = .ok (none, s)) ∧
    (0 < s.num_requests → ∃ i r s2, get_request s = .ok (some i, s2) ∧
      s.requests = some i ∧ s.heap[i]? = some r ∧ s2.requests = r.next ∧
      s2.num_requests = s.num_requests - 1 ∧
      (s.num_requests = 1 → s2.requests = none ∧ s2.last_request = none)) := by
  constructor
  · exact get_request_of_empty
  · intro hpos
    cases ids with
    | nil =>
      exfalso
      rw [h.count] at hpos
      simp at hpos
    | cons i ids0 =>
      obtain ⟨r, s2, hr, hok, hinv2, hheap, hnum, hreqnext, hreq, hone⟩ :=
        get_spec_cons h
      exact ⟨i, r, s2, hok, hreq, hr, hreqnext, hnum, hone⟩

/-- Witness for claim C4 at the concrete one-element queue `poolOne`. -/
theorem c4_get_request_post_witness :
    ∃ i r s2, get_request poolOne = .ok (some i, s2) ∧
      poolOne.requests = some i ∧ poolOne.heap[i]? = some r ∧
      s2.requests = r.next ∧
      s2.num_requests = poolOne.num_requests - 1 ∧
      (poolOne.num_requests = 1 →
        s2.requests = none ∧ s2.last_request = none) :=
  (c4_get_request_post poolOne [0] poolOne_inv).2 (by norm_num [poolOne])

/-- Claim C5: enqueue postcondition — on a well formed queue state, a
successful `add_request` appends the item at the tail: the counter grows
by exactly one, the tail pointer refers to the newly added node, that
node carries the submitted payload, and the chain of queued nodes is the
old one extended by the new node. -/
theorem c5_add_request_post (f d : Int) (s : PoolState) (ids : List Nat)
    (h : ChainInv s ids) :
    ∃ s2, add_request f d true s = .ok s2 ∧
      s2.num_requests = s.num_requests + 1 ∧
      s2.last_request = some s.heap.length ∧
      itemAt s2.heap s.heap.length = (f, d) ∧
      Chain s2.heap s2.requests (ids ++ [s.heap.length]) := by
  obtain ⟨s2, hok, hinv2, hnum, hlast, hlen, hitem, hpres⟩ := add_spec f d h
  exact ⟨s2, hok, hnum, hlast, hitem, hinv2.chain⟩

/-- Witness for claim C5 at the empty initial queue. -/
theorem c5_add_request_post_witness :
    ∃ s2, add_request 5 7 true initState = .ok s2 ∧
      s2.num_requests = initState.num_requests + 1 ∧
      s2.last_request = some initState.heap.length ∧
      itemAt s2.heap initState.heap.length = (5, 7) ∧
      Chain s2.heap s2.requests ([] ++ [initState.heap.length]) :=
  c5_add_request_post 5 7 initState [] chainInv_init

/-- Claim C6: queue structural invariant — in every state reachable by
any sequence of `add_request` and `get_request` operations from the
initial empty queue, the head pointer is non-null iff the counter is
positive, the tail pointer is non-null iff the counter is positive, head
and tail coincide when the counter is one, and the counter equals the
number of queued (submitted but not yet dequeued) nodes. -/
theorem c6_queue_structural_invariant (s : PoolState) (h : PoolReach s) :
    (s.requests ≠ none ↔ 0 < s.num_requests) ∧
    (s.last_request ≠ none ↔ 0 < s.num_requests) ∧
    (s.num_requests = 1 → s.requests = s.last_request) ∧
    (∃ ids, Chain s.heap s.requests ids ∧ s.num_requests = ids.length) := by
  obtain ⟨ids, hinv⟩ := reach_chainInv h
  obtain ⟨hch, hcount, htail, hnd⟩ := hinv
  cases ids with
  | nil =>
    have hreq : s.requests = none := chain_nil_src hch
    refine ⟨?_, ?_, ?_, ⟨[], hch, hcount⟩⟩
    · rw [hreq, hcount]
      simp
    · rw [htail, hcount]
      simp
    · intro h1
      rw [hcount] at h1
      simp at h1
  | cons i ids0 =>
    have hreq : s.requests = some i := (chain_cons_elim hch).1
    have hpos : 0 < s.num_requests := by
      rw [hcount]
      simp only [List.length_cons]
      push_cast
      omega
    refine ⟨?_, ?_, ?_, ⟨i :: ids0, hch, hcount⟩⟩
    · exact ⟨fun _ => hpos, fun _ => by rw [hreq]; simp⟩
    · refine ⟨fun _ => hpos, fun _ => ?_⟩
      rw [htail, List.getLast?_eq_getLast _ (by simp)]
      simp
    · intro h1
      have hids0 : ids0 = [] := by
        rw [h1] at hcount
        simp only [List.length_cons] at hcount
        push_cast at hcount
        have h0 : ids0.length = 0 := by omega
        exact List.length_eq_zero.mp h0
      subst hids0
      rw [hreq, htail]
      rfl

/-- Witness for claim C6 at the reachable initial state. -/
theorem c6_queue_structural_invariant_witness :
    (initState.requests ≠ none ↔ 0 < initState.num_requests) ∧
    (initState.last_request ≠ none ↔ 0 < initState.num_requests) ∧
    (initState.num_requests = 1 →
      initState.requests = initState.last_request) ∧
    (∃ ids, Chain initState.heap initState.requests ids ∧
      initState.num_requests = ids.length) :=
  c6_queue_structural_invariant initState PoolReach.init

/-- Claim C7 counterexample: mapping the squaring function over the demo
input does NOT yield the output array the claim lists: the fifth entry is
`31312² = 980441344`, not the `980440944` the claim and the spec state. -/
theorem c7_square_scenario_cex :
    mainArray.map squareValue ≠ specSquares ∧
    squareValue 31312 = 980441344 ∧
    (mainArray.map squareValue)[4]? = some 980441344 ∧
    specSquares[4]? = some 980440944 := by
  decide

/-- Claim C7 amended: mapping the squaring function over the input
`[1, 12, 21323, 12, 31312, 1, 13, 3, 5, 7, 8, 9, 943]` yields exactly
`[1, 144, 454670329, 144, 980441344, 1, 169, 9, 25, 49, 64, 81, 889249]`
(the fifth slot is `980441344`), and every result fits a 32-bit `int`, so
C integer arithmetic computes these values exactly. -/
theorem c7_square_scenario_amended :
    mainArray.map squareValue = actualSquares ∧
    ∀ y ∈ mainArray.map squareValue, -(2 ^ 31) ≤ y ∧ y < 2 ^ 31 := by
  decide

/-- Claim C8: enqueue fails only on allocation failure, and that failure
is fatal (`exit(1)`, modelled as `outOfMemory`): a failed allocation
always yields the fatal error, a successful allocation never does, and on
a well formed state a successful allocation makes `add_request`
succeed — the failure branch is unreachable. -/
theorem c8_enqueue_failure_only_alloc :
    (∀ f d s, add_request f d false s = .error CErr.outOfMemory) ∧
    (∀ f d s, add_request f d true s ≠ .error CErr.outOfMemory) ∧
    (∀ f d s ids, ChainInv s ids →
      ∃ s2, add_request f d true s = .ok s2) := by
  refine ⟨fun f d s => rfl, ?_, ?_⟩
  · intro f d s hc
    by_cases hz : s.num_requests = 0
    · simp [add_request, hz] at hc
    · cases hlr : s.last_request with
      | none => simp [add_request, hz, hlr] at hc
      | some t =>
        cases hh : (s.heap ++
            [({ func := f, data := d, next := none } : Request)])[t]? with
        | none => simp [add_request, hz, hlr, hh] at hc
        | some rt => simp [add_request, hz, hlr, hh] at hc
  · intro f d s ids h
    obtain ⟨s2, hok, -⟩ := add_spec f d h
    exact ⟨s2, hok⟩

/-- Witness for claim C8 at the initial state. -/
theorem c8_enqueue_failure_only_alloc_witness :
    add_request 1 2 false initState = .error CErr.outOfMemory ∧
    add_request 1 2 true initState ≠ .error CErr.outOfMemory ∧
    (∃ s2, add_request 1 2 true initState = .ok s2) :=
  ⟨c8_enqueue_failure_only_alloc.1 1 2 initState,
   c8_enqueue_failure_only_alloc.2.1 1 2 initState,
   c8_enqueue_failure_only_alloc.2.2 1 2 initState [] chainInv_init⟩

/-- Claim C9: dequeue on an empty queue is state preserving — whenever
`num_requests` is `0`, `get_request` returns `NULL` and leaves the head
pointer, the tail pointer and the counter (the whole state) unchanged. -/
theorem c9_get_request_empty_frame (s : PoolState)
    (h : s.num_requests = 0) : get_request s = .ok (none, s) := by
  simp [get_request, h]

/-- Witness for claim C9 at the initial state. -/
theorem c9_get_request_empty_frame_witness :
    get_request initState = .ok (none, initState) :=
  c9_get_request_empty_frame initState rfl

/-- Claim C10: tail well-formedness — in every state reachable by any
sequence of `add_request` and `get_request` operations from the initial
empty queue, if the queue is non-empty then the node the tail pointer
refers to exists and has a `NULL` `next` pointer: the list is properly
terminated at the tail. -/
theorem c10_tail_terminated (s : PoolState) (h : PoolReach s)
    (hne : 0 < s.num_requests) :
    ∃ t r, s.last_request = some t ∧ s.heap[t]? = some r ∧
      r.next = none := by
  obtain ⟨ids, hinv⟩ := reach_chainInv h
  cases ids with
  | nil =>
    exfalso
    rw [hinv.count] at hne
    simp at hne
  | cons i ids0 =>
    obtain ⟨t, ht⟩ : ∃ t, (i :: ids0).getLast? = some t :=
      ⟨_, List.getLast?_eq_getLast _ (by simp)⟩
    obtain ⟨r, hr, hrn⟩ := chain_last_next_none hinv.chain ht
    exact ⟨t, r, by rw [hinv.tailp, ht], hr, hrn⟩

/-- Witness for claim C10 at the reachable one-element queue `poolOne`. -/
theorem c10_tail_terminated_witness :
    ∃ t r, poolOne.last_request = some t ∧ poolOne.heap[t]? = some r ∧
      r.next = none :=
  c10_tail_terminated poolOne (PoolReach.add 5 7 PoolReach.init rfl)
    (by norm_num [poolOne])

end ThreadPool
